import Mathlib

/-!
Verification of the sentence-ranking and selection engine of the
RAG customer-support summarizer backend.

The definitions below are shallow embeddings of the Python source:

* `word_overlap`, `isDiverse`, `selectGreedy`, `resortSelected`,
  `select_diverse_sentences` embed
  `backend/src/pipeline/extractive_pipeline.py`
  (`_word_overlap`, `_select_diverse_sentences`);
* `pagerank` and `rank_sentences` embed the networkx power-iteration
  PageRank call and `backend/src/services/textrank_service.py`
  (`rank_sentences`), with machine floats idealized as rationals;
* `score_sentence_heuristic` and `combine_scores` embed
  `backend/src/services/preprocessor.py` and
  `_combine_scores` of the extractive pipeline;
* `build_similarity_matrix` embeds `_build_similarity_matrix`, with the
  external TF-IDF vectorizer treated as a parameter (its output vectors,
  or its failure) and sklearn cosine similarity idealized over the reals;
* `generate_summary_model` embeds the retry/fallback control flow of
  `backend/src/services/llm_service.py` (`generate_summary`) with the
  external HTTP call treated as a parameter giving each attempt's outcome.

A candidate is a `(sentence, score, position)` triple, as in the source.
Python strings are handled through their character lists so that every
definition reduces by computation.
-/

abbrev Cand := String × ℚ × ℕ

/-- Python `str.split()` (no separator): split on whitespace runs and drop
empty pieces.  `cur` accumulates the current word reversed. -/
def pySplitGo : List Char → List Char → List (List Char)
  | [], cur => if cur.isEmpty then [] else [cur.reverse]
  | c :: cs, cur =>
    if c.isWhitespace then
      if cur.isEmpty then pySplitGo cs [] else cur.reverse :: pySplitGo cs []
    else pySplitGo cs (c :: cur)

/-- Python `sentence.split()`: the whitespace-separated words of a string. -/
def pyWords (s : String) : List (List Char) :=
  pySplitGo s.data []

/-- Python `sentence.lower().split()` (ASCII case folding, as the tests and
counterexamples only use ASCII text). -/
def lowerWords (s : String) : List (List Char) :=
  pySplitGo (s.data.map Char.toLower) []

/-- The word set `set(sentX.lower().split())` of `_word_overlap`. -/
def wordSet (s : String) : Finset (List Char) :=
  (lowerWords s).toFinset

/-- Embeds `_word_overlap`: Jaccard overlap |intersection| / |union| of the
two word sets, 0 when either set is empty. -/
def word_overlap (s1 s2 : String) : ℚ :=
  if wordSet s1 = ∅ ∨ wordSet s2 = ∅ then 0
  else if 0 < (wordSet s1 ∪ wordSet s2).card then
    ((wordSet s1 ∩ wordSet s2).card : ℚ) / ((wordSet s1 ∪ wordSet s2).card : ℚ)
  else 0

/-- The inner redundancy check of `_select_diverse_sentences`: a candidate
is diverse iff its overlap with every already-selected sentence is not
greater than 0.5. -/
def isDiverse (sent : String) (selected : List String) : Bool :=
  selected.all (fun prev => decide (word_overlap sent prev ≤ 1/2))

/-- The greedy loop of `_select_diverse_sentences`: walk the score-ordered
candidates, stop once `top_k` are selected, append a candidate iff it
passes the redundancy check. -/
def selectGreedy (top_k : ℕ) : List Cand → List String → List String
  | [], selected => selected
  | c :: rest, selected =>
    if top_k ≤ selected.length then selected
    else if isDiverse c.1 selected then selectGreedy top_k rest (selected ++ [c.1])
    else selectGreedy top_k rest selected

/-- The labels the source attaches to the selected sentences before the
final sort: the i-th selected sentence is paired with
`scored_sentences[i][2]`, the position of the i-th candidate of the
score-ordered list (not of the selected sentence itself). -/
def selectionLabels (m : ℕ) (scored : List Cand) : List ℕ :=
  (List.range m).map (fun i => (scored.getD i ("", 0, 0)).2.2)

/-- The final re-sort of `_select_diverse_sentences`:
`[(sent, scored_sentences[i][2]) for i, sent in enumerate(selected)]`
sorted (stably) by the attached label, then the sentences alone. -/
def resortSelected (selected : List String) (scored : List Cand) : List String :=
  (List.insertionSort (fun a b : String × ℕ => a.2 ≤ b.2)
    (selected.zip (selectionLabels selected.length scored))).map Prod.fst

/-- The `len(scored_sentences) <= top_k` bypass branch: pair every candidate
with its own position, sort by position, return the sentences. -/
def docOrder (scored : List Cand) : List String :=
  (List.insertionSort (fun a b : String × ℕ => a.2 ≤ b.2)
    (scored.map (fun c => (c.1, c.2.2)))).map Prod.fst

/-- Embeds `_select_diverse_sentences scored_sentences top_k`. -/
def select_diverse_sentences (scored : List Cand) (top_k : ℕ) : List String :=
  if scored.length ≤ top_k then docOrder scored
  else resortSelected (selectGreedy top_k scored []) scored

/-- Document position of a sentence according to a scored candidate list
(first matching entry). -/
def posOf (scored : List Cand) (s : String) : ℕ :=
  ((scored.find? (fun c => c.1 == s)).map (fun c => c.2.2)).getD 0

/-- Concrete score-descending candidate pool exhibiting the re-sort
misalignment: the middle candidate is rejected by the redundancy filter,
so the selected sentences get paired with the wrong position labels. -/
def c1pool : List Cand :=
  [("a b", 3, 1), ("a b c", 2, 5), ("x y", 1, 0)]

/-- C1: with pool size 3 > top_k = 2, the greedy selection picks "a b"
(position 1) and "x y" (position 0), but the returned list is
["a b", "x y"] — document positions [1, 0] — so the extractive output is
NOT in original document (reading) order.  The code pairs the i-th
selected sentence with `scored_sentences[i][2]` instead of its own
position, contradicting the function's own docstring
("List of selected sentences in document order"). -/
theorem c1_output_not_in_reading_order :
    select_diverse_sentences c1pool 2 = ["a b", "x y"] ∧
    (select_diverse_sentences c1pool 2).map (posOf c1pool) = [1, 0] ∧
    ¬ List.Sorted (· ≤ ·) ((select_diverse_sentences c1pool 2).map (posOf c1pool)) := by
  refine ⟨by with_unfolding_all decide, by with_unfolding_all decide, ?_⟩
  have h : (select_diverse_sentences c1pool 2).map (posOf c1pool) = [1, 0] := by
    with_unfolding_all decide
  rw [h]
  decide

/-- Concrete pool of three identical sentences: every later candidate is
rejected by the redundancy filter. -/
def c2pool : List Cand :=
  [("a b", 3, 0), ("a b", 2, 1), ("a b", 1, 2)]

/-- C2 counterexample: with 3 candidates and top_k = 2, selection returns
only 1 sentence, strictly fewer than min(top_k, available) = 2. -/
theorem c2_fewer_than_min_topk_available :
    (select_diverse_sentences c2pool 2).length = 1 ∧
    (select_diverse_sentences c2pool 2).length < min 2 c2pool.length := by
  constructor <;> with_unfolding_all decide

/-! Helper lemmas about the greedy selection loop. -/

/-- Unfolding of `isDiverse`: every previously selected sentence overlaps
the accepted candidate by at most 0.5. -/
lemma isDiverse_spec {s : String} {sel : List String} (h : isDiverse s sel = true) :
    ∀ p ∈ sel, word_overlap s p ≤ 1/2 := by
  intro p hp
  have := List.all_eq_true.mp h p hp
  exact of_decide_eq_true this

/-- Jaccard word overlap is symmetric. -/
lemma word_overlap_comm (s1 s2 : String) : word_overlap s1 s2 = word_overlap s2 s1 := by
  unfold word_overlap
  rw [Finset.union_comm (wordSet s1), Finset.inter_comm (wordSet s1)]
  by_cases h1 : wordSet s1 = ∅ <;> by_cases h2 : wordSet s2 = ∅ <;> simp [h1, h2]

/-- The greedy loop only ever appends: already-selected sentences stay. -/
lemma mem_selectGreedy_of_mem (k : ℕ) (cands : List Cand) :
    ∀ sel x, x ∈ sel → x ∈ selectGreedy k cands sel := by
  induction cands with
  | nil => intro sel x hx; simpa [selectGreedy] using hx
  | cons c rest ih =>
    intro sel x hx
    simp only [selectGreedy]
    split_ifs with h1 h2
    · exact hx
    · exact ih _ x (List.mem_append_left _ hx)
    · exact ih _ x hx

/-- Everything the greedy loop returns comes from the accumulator or the
candidate sentences. -/
lemma mem_selectGreedy (k : ℕ) (cands : List Cand) :
    ∀ sel x, x ∈ selectGreedy k cands sel → x ∈ sel ∨ x ∈ cands.map (fun c => c.1) := by
  induction cands with
  | nil => intro sel x hx; exact Or.inl (by simpa [selectGreedy] using hx)
  | cons c rest ih =>
    intro sel x hx
    simp only [selectGreedy] at hx
    split_ifs at hx with h1 h2
    · exact Or.inl hx
    · rcases ih _ x hx with h | h
      · rcases List.mem_append.mp h with h' | h'
        · exact Or.inl h'
        · exact Or.inr (by simp [List.mem_singleton.mp h'])
      · exact Or.inr (by simp [h])
    · rcases ih _ x hx with h | h
      · exact Or.inl h
      · exact Or.inr (by simp [h])

/-- The greedy loop never selects more than `top_k` sentences. -/
lemma selectGreedy_length_le (k : ℕ) (cands : List Cand) :
    ∀ sel, sel.length ≤ k → (selectGreedy k cands sel).length ≤ k := by
  induction cands with
  | nil => intro sel h; simpa [selectGreedy] using h
  | cons c rest ih =>
    intro sel h
    simp only [selectGreedy]
    split_ifs with h1 h2
    · exact h
    · exact ih _ (by simp; omega)
    · exact ih _ h

/-- The greedy loop never drops sentences from the accumulator. -/
lemma length_le_selectGreedy (k : ℕ) (cands : List Cand) :
    ∀ sel, sel.length ≤ (selectGreedy k cands sel).length := by
  induction cands with
  | nil => intro sel; simp [selectGreedy]
  | cons c rest ih =>
    intro sel
    simp only [selectGreedy]
    split_ifs with h1 h2
    · exact le_refl _
    · calc sel.length ≤ (sel ++ [c.1]).length := by simp
        _ ≤ _ := ih _
    · exact ih _

/-- Greedy invariant: the selected sentences are pairwise within the
redundancy threshold. -/
lemma selectGreedy_pairwise (k : ℕ) (cands : List Cand) :
    ∀ sel, sel.Pairwise (fun a b => word_overlap a b ≤ 1/2) →
      (selectGreedy k cands sel).Pairwise (fun a b => word_overlap a b ≤ 1/2) := by
  induction cands with
  | nil => intro sel h; simpa [selectGreedy] using h
  | cons c rest ih =>
    intro sel h
    simp only [selectGreedy]
    split_ifs with h1 h2
    · exact h
    · refine ih _ ?_
      rw [List.pairwise_append]
      refine ⟨h, List.pairwise_singleton _ _, ?_⟩
      intro a ha b hb
      rw [List.mem_singleton.mp hb, word_overlap_comm]
      exact isDiverse_spec h2 a ha
    · exact ih _ h

/-- `selectionLabels` produces one label per selected sentence. -/
lemma selectionLabels_length (m : ℕ) (scored : List Cand) :
    (selectionLabels m scored).length = m := by
  simp [selectionLabels]

/-- The final (mis-labelled) re-sort is a permutation of the selected
sentences: it reorders but never adds or removes. -/
lemma resortSelected_perm (sel : List String) (scored : List Cand) :
    List.Perm (resortSelected sel scored) sel := by
  unfold resortSelected
  have h1 := List.perm_insertionSort (fun a b : String × ℕ => a.2 ≤ b.2)
    (sel.zip (selectionLabels sel.length scored))
  have h2 := h1.map Prod.fst
  rwa [List.map_fst_zip sel _ (by rw [selectionLabels_length])] at h2

/-- The bypass branch returns exactly the candidate sentences, reordered. -/
lemma docOrder_perm (scored : List Cand) :
    List.Perm (docOrder scored) (scored.map (fun c => c.1)) := by
  unfold docOrder
  have h1 := List.perm_insertionSort (fun a b : String × ℕ => a.2 ≤ b.2)
    (scored.map (fun c => (c.1, c.2.2)))
  have h2 := h1.map Prod.fst
  rwa [List.map_map] at h2

/-- C3: diversity invariant.  Whenever the candidate pool is strictly
larger than `top_k`, any two distinct sentences of the selection result
have Jaccard word overlap at most the redundancy threshold 0.5; when the
pool fits inside `top_k` the filter is bypassed and all candidates are
returned (as a permutation, in document order). -/
theorem c3_diversity_invariant (scored : List Cand) (k : ℕ) :
    (k < scored.length →
      ∀ s1 ∈ select_diverse_sentences scored k, ∀ s2 ∈ select_diverse_sentences scored k,
        s1 ≠ s2 → word_overlap s1 s2 ≤ 1/2) ∧
    (scored.length ≤ k →
      List.Perm (select_diverse_sentences scored k) (scored.map (fun c => c.1))) := by
  constructor
  · intro hk s1 h1 s2 h2 hne
    have hsel : select_diverse_sentences scored k
        = resortSelected (selectGreedy k scored []) scored := by
      unfold select_diverse_sentences
      rw [if_neg (by omega)]
    rw [hsel] at h1 h2
    have hperm := resortSelected_perm (selectGreedy k scored []) scored
    have m1 : s1 ∈ selectGreedy k scored [] := hperm.mem_iff.mp h1
    have m2 : s2 ∈ selectGreedy k scored [] := hperm.mem_iff.mp h2
    have hpw := selectGreedy_pairwise k scored [] List.Pairwise.nil
    have hsymm : Symmetric (fun a b : String => word_overlap a b ≤ 1/2) := by
      intro a b hab
      rw [word_overlap_comm]
      exact hab
    exact hpw.forall hsymm m1 m2 hne
  · intro hk
    have hsel : select_diverse_sentences scored k = docOrder scored := by
      unfold select_diverse_sentences
      rw [if_pos hk]
    rw [hsel]
    exact docOrder_perm scored

/-- C3 witness: on the concrete pool `c1pool` with top_k = 2 < 3 candidates,
the two distinct selected sentences overlap by at most 0.5. -/
theorem c3_witness : word_overlap "a b" "x y" ≤ 1/2 :=
  (c3_diversity_invariant c1pool 2).1 (by norm_num [c1pool])
    "a b" (by with_unfolding_all decide)
    "x y" (by with_unfolding_all decide)
    (by decide)

/-- C2 (amended): selection never returns more than `top_k` sentences; when
the pool fits inside `top_k` it returns exactly the pool; when the pool is
strictly larger it returns at least one sentence, but the redundancy
filter may leave it with fewer than `min(top_k, available)`. -/
theorem c2_selection_size_bounds (scored : List Cand) (k : ℕ) (hk : 1 ≤ k) :
    (select_diverse_sentences scored k).length ≤ k ∧
    (scored.length ≤ k → (select_diverse_sentences scored k).length = scored.length) ∧
    (k < scored.length → 1 ≤ (select_diverse_sentences scored k).length) := by
  refine ⟨?_, ?_, ?_⟩
  · unfold select_diverse_sentences
    split_ifs with h
    · calc (docOrder scored).length = (scored.map (fun c => c.1)).length :=
            (docOrder_perm scored).length_eq
        _ ≤ k := by simpa using h
    · calc (resortSelected (selectGreedy k scored []) scored).length
          = (selectGreedy k scored []).length :=
            (resortSelected_perm _ scored).length_eq
        _ ≤ k := selectGreedy_length_le k scored [] (by simp)
  · intro h
    unfold select_diverse_sentences
    rw [if_pos h]
    calc (docOrder scored).length = (scored.map (fun c => c.1)).length :=
          (docOrder_perm scored).length_eq
      _ = scored.length := by simp
  · intro h
    unfold select_diverse_sentences
    rw [if_neg (by omega)]
    rw [(resortSelected_perm _ scored).length_eq]
    obtain ⟨c, rest, rfl⟩ : ∃ c rest, scored = c :: rest := by
      cases scored with
      | nil => simp at h
      | cons c rest => exact ⟨c, rest, rfl⟩
    have hne : ¬ k ≤ ([] : List String).length := by
      simp only [List.length_nil]
      omega
    have hd : isDiverse c.1 [] = true := rfl
    have hstep : selectGreedy k (c :: rest) [] = selectGreedy k rest [c.1] := by
      rw [selectGreedy, if_neg hne, if_pos hd, List.nil_append]
    rw [hstep]
    calc 1 = ([c.1] : List String).length := by simp
      _ ≤ _ := length_le_selectGreedy k rest [c.1]

/-- C2 witness: on the concrete pool `c1pool` with top_k = 2, the selection
size bounds instantiate to 1 ≤ size ≤ 2. -/
theorem c2_selection_size_bounds_witness :
    1 ≤ (select_diverse_sentences c1pool 2).length ∧
    (select_diverse_sentences c1pool 2).length ≤ 2 :=
  ⟨(c2_selection_size_bounds c1pool 2 (by norm_num)).2.2 (by norm_num [c1pool]),
   (c2_selection_size_bounds c1pool 2 (by norm_num)).1⟩

/-- Raising `top_k` only ever adds to what the greedy loop selects. -/
lemma selectGreedy_mono (k1 k2 : ℕ) (hk : k1 ≤ k2) (cands : List Cand) :
    ∀ sel x, x ∈ selectGreedy k1 cands sel → x ∈ selectGreedy k2 cands sel := by
  induction cands with
  | nil => intro sel x hx; simpa [selectGreedy] using hx
  | cons c rest ih =>
    intro sel x hx
    simp only [selectGreedy] at hx ⊢
    by_cases h1 : k1 ≤ sel.length
    · rw [if_pos h1] at hx
      by_cases h2 : k2 ≤ sel.length
      · rwa [if_pos h2]
      · rw [if_neg h2]
        split_ifs with hd
        · exact mem_selectGreedy_of_mem k2 rest _ x (List.mem_append_left _ hx)
        · exact mem_selectGreedy_of_mem k2 rest _ x hx
    · have h2 : ¬ k2 ≤ sel.length := by omega
      rw [if_neg h1] at hx
      rw [if_neg h2]
      split_ifs at hx ⊢ with hd
      · exact ih _ x hx
      · exact ih _ x hx

/-- C9: monotonicity in `top_k`.  For k1 < k2 on the same scored pool,
every sentence selected at k1 — both as the greedy loop leaves it, before
the final re-sort, and in the final returned list — is also selected at
k2. -/
theorem c9_topk_monotone (scored : List Cand) (k1 k2 : ℕ) (h12 : k1 < k2) :
    (∀ s ∈ selectGreedy k1 scored [], s ∈ selectGreedy k2 scored []) ∧
    (∀ s ∈ select_diverse_sentences scored k1, s ∈ select_diverse_sentences scored k2) := by
  constructor
  · exact fun s hs => selectGreedy_mono k1 k2 (le_of_lt h12) scored [] s hs
  · intro s hs
    by_cases ha : scored.length ≤ k1
    · have hb : scored.length ≤ k2 := by omega
      unfold select_diverse_sentences at hs ⊢
      rw [if_pos ha] at hs
      rw [if_pos hb]
      exact hs
    · have hmem : s ∈ selectGreedy k1 scored [] := by
        unfold select_diverse_sentences at hs
        rw [if_neg ha] at hs
        exact (resortSelected_perm _ scored).mem_iff.mp hs
      unfold select_diverse_sentences
      by_cases hb : scored.length ≤ k2
      · rw [if_pos hb]
        rcases mem_selectGreedy k1 scored [] s hmem with hc | hall
        · simp at hc
        · exact (docOrder_perm scored).mem_iff.mpr hall
      · rw [if_neg hb]
        exact (resortSelected_perm _ scored).mem_iff.mpr
          (selectGreedy_mono k1 k2 (le_of_lt h12) scored [] s hmem)

/-- C9 witness: the sentence selected from `c1pool` at top_k = 1 is still
selected at top_k = 2. -/
theorem c9_topk_monotone_witness : "a b" ∈ select_diverse_sentences c1pool 2 :=
  (c9_topk_monotone c1pool 1 2 (by norm_num)).2 "a b" (by with_unfolding_all decide)

/-- C10: the highest-fused-score candidate is always part of the returned
selection — it is accepted unconditionally by the greedy loop (the
selected set is empty when it is examined), and the bypass branch returns
every candidate. -/
theorem c10_top_candidate_selected (c : Cand) (rest : List Cand) (k : ℕ) (hk : 1 ≤ k) :
    c.1 ∈ select_diverse_sentences (c :: rest) k := by
  unfold select_diverse_sentences
  split_ifs with h
  · exact (docOrder_perm (c :: rest)).mem_iff.mpr (by simp)
  · have hne : ¬ k ≤ ([] : List String).length := by
      simp only [List.length_nil]
      omega
    have hd : isDiverse c.1 [] = true := rfl
    have hstep : selectGreedy k (c :: rest) [] = selectGreedy k rest [c.1] := by
      rw [selectGreedy, if_neg hne, if_pos hd, List.nil_append]
    refine (resortSelected_perm _ (c :: rest)).mem_iff.mpr ?_
    rw [hstep]
    exact mem_selectGreedy_of_mem k rest [c.1] c.1 (by simp)

/-- C10 witness: at top_k = 1, the top-scored sentence of `c1pool` is in the
selection. -/
theorem c10_top_candidate_selected_witness :
    "a b" ∈ select_diverse_sentences c1pool 1 :=
  c10_top_candidate_selected ("a b", 3, 1) [("a b c", 2, 5), ("x y", 1, 0)] 1 (le_refl 1)

/-! Embedding of the networkx PageRank call of `rank_sentences`
(`nx.pagerank(graph, alpha=0.85, max_iter=100, tol=1e-6)`), following the
scipy power-iteration implementation networkx dispatches to: row-normalize
the adjacency matrix, iterate
`x <- alpha*(x@M + danglesum*p) + (1-alpha)*p` from the uniform vector,
return on L1 change < n*tol, and raise (here: `none`) after `max_iter`
iterations.  Floats are idealized as rationals. -/

/-- Column `j` of the vector-matrix product `x @ M`. -/
def dotCol (x : List ℚ) (M : List (List ℚ)) (j : ℕ) : ℚ :=
  ((x.zip M).map (fun p => p.1 * p.2.getD j 0)).sum

/-- The vector-matrix product `x @ M` (with `n` columns). -/
def vecMatMul (x : List ℚ) (M : List (List ℚ)) (n : ℕ) : List ℚ :=
  (List.range n).map (fun j => dotCol x M j)

/-- `Q @ A` of the scipy implementation: each row divided by its sum, rows
with sum 0 left as zero rows. -/
def rowNormalized (A : List (List ℚ)) : List (List ℚ) :=
  A.map (fun row => row.map (fun a => (if row.sum = 0 then 0 else 1 / row.sum) * a))

/-- `sum(x[is_dangling])`: total mass on nodes whose row sum is 0. -/
def danglingSum (x rowsums : List ℚ) : ℚ :=
  ((x.zip rowsums).map (fun p => if p.2 = 0 then p.1 else 0)).sum

/-- One power iteration step. -/
def pagerankStep (alpha : ℚ) (M : List (List ℚ)) (rowsums p x : List ℚ) (n : ℕ) : List ℚ :=
  (List.range n).map (fun j =>
    alpha * ((vecMatMul x M n).getD j 0 + danglingSum x rowsums * p.getD j 0)
      + (1 - alpha) * p.getD j 0)

/-- `absolute(x - xlast).sum()`. -/
def l1dist (a b : List ℚ) : ℚ :=
  ((a.zip b).map (fun p => |p.1 - p.2|)).sum

/-- The iteration loop: `none` models the PowerIterationFailedConvergence
exception raised when `max_iter` runs out. -/
def pagerankLoop (alpha : ℚ) (M : List (List ℚ)) (rowsums p : List ℚ) (tol : ℚ) (n : ℕ) :
    ℕ → List ℚ → Option (List ℚ)
  | 0, _ => none
  | fuel + 1, x =>
    if l1dist (pagerankStep alpha M rowsums p x n) x < n * tol then
      some (pagerankStep alpha M rowsums p x n)
    else pagerankLoop alpha M rowsums p tol n fuel (pagerankStep alpha M rowsums p x n)

/-- `nx.pagerank` on the weighted graph of an n×n similarity matrix `A`
(nstart and personalization default to the uniform vector). -/
def pagerank (alpha : ℚ) (A : List (List ℚ)) (maxIter : ℕ) (tol : ℚ) : Option (List ℚ) :=
  pagerankLoop alpha (rowNormalized A) (A.map List.sum)
    (List.replicate A.length (1 / (A.length : ℚ))) tol A.length maxIter
    (List.replicate A.length (1 / (A.length : ℚ)))

/-- The order the Python stable sort
`sorted(..., key=lambda x: x[1], reverse=True)` realizes on the
position-indexed triples (positions are strictly increasing in the input,
so stability amounts to breaking score ties by position). -/
def rankLE (a b : Cand) : Prop :=
  b.2.1 < a.2.1 ∨ (a.2.1 = b.2.1 ∧ a.2.2 ≤ b.2.2)

instance : DecidableRel rankLE := fun a b =>
  inferInstanceAs (Decidable (b.2.1 < a.2.1 ∨ (a.2.1 = b.2.1 ∧ a.2.2 ≤ b.2.2)))

instance : IsTotal Cand rankLE := ⟨by
  intro a b
  unfold rankLE
  rcases lt_trichotomy a.2.1 b.2.1 with h | h | h
  · exact Or.inr (Or.inl h)
  · rcases le_total a.2.2 b.2.2 with h2 | h2
    · exact Or.inl (Or.inr ⟨h, h2⟩)
    · exact Or.inr (Or.inr ⟨h.symm, h2⟩)
  · exact Or.inl (Or.inl h)⟩

instance : IsTrans Cand rankLE := ⟨by
  intro a b c hab hbc
  unfold rankLE at *
  rcases hab with h1 | ⟨e1, p1⟩ <;> rcases hbc with h2 | ⟨e2, p2⟩
  · exact Or.inl (h2.trans h1)
  · exact Or.inl (e2 ▸ h1)
  · exact Or.inl (by rw [e1]; exact h2)
  · exact Or.inr ⟨e1.trans e2, p1.trans p2⟩⟩

/-- The per-node scores `rank_sentences` works with: the PageRank result,
or the uniform `1/n` fallback installed by the bare `except` clause. -/
def textrankScores (A : List (List ℚ)) (n : ℕ) : List ℚ :=
  (pagerank (17/20) A 100 (1/1000000)).getD (List.replicate n (1 / (n : ℚ)))

/-- `sorted([(sentences[i], scores[i], i) for i in range(len(sentences))],
key=lambda x: x[1], reverse=True)`. -/
def rankedList (A : List (List ℚ)) (sentences : List String) : List Cand :=
  List.insertionSort rankLE
    ((List.range sentences.length).map (fun i =>
      (sentences.getD i "", (textrankScores A sentences.length).getD i 0, i)))

/-- Embeds `TextRankService.rank_sentences` (the `ranked_sentences` field of
its result): empty input short-circuits, otherwise the score-sorted triples
truncated to `min(top_k, len(ranked))`. -/
def rank_sentences (A : List (List ℚ)) (sentences : List String) (top_k : ℕ) : List Cand :=
  if sentences.isEmpty then []
  else (rankedList A sentences).take (min top_k (rankedList A sentences).length)

/-! Nonnegativity of the PageRank iteration. -/

/-- Reading a nonnegative list (default 0) gives a nonnegative value. -/
lemma getD_nonneg {l : List ℚ} (h : ∀ q ∈ l, 0 ≤ q) (i : ℕ) : 0 ≤ l.getD i 0 := by
  by_cases hi : i < l.length
  · rw [List.getD_eq_getElem _ _ (hi)]
    exact h _ (List.getElem_mem hi)
  · rw [List.getD_eq_default _ _ (by omega)]

/-- Reading inside a replicated list gives the replicated value. -/
lemma getD_replicate_of_lt {α : Type} (a d : α) {n i : ℕ} (h : i < n) :
    (List.replicate n a).getD i d = a := by
  rw [List.getD_eq_getElem _ _ (by simpa using h), List.getElem_replicate]

lemma dotCol_nonneg {x : List ℚ} {M : List (List ℚ)}
    (hx : ∀ q ∈ x, 0 ≤ q) (hM : ∀ row ∈ M, ∀ q ∈ row, 0 ≤ q) (j : ℕ) :
    0 ≤ dotCol x M j := by
  unfold dotCol
  apply List.sum_nonneg
  intro q hq
  simp only [List.mem_map] at hq
  obtain ⟨pr, hpr, rfl⟩ := hq
  exact mul_nonneg (hx _ (List.of_mem_zip hpr).1)
    (getD_nonneg (hM _ (List.of_mem_zip hpr).2) j)

lemma rowNormalized_nonneg {A : List (List ℚ)} (hA : ∀ row ∈ A, ∀ q ∈ row, 0 ≤ q) :
    ∀ row ∈ rowNormalized A, ∀ q ∈ row, 0 ≤ q := by
  intro row hrow q hq
  unfold rowNormalized at hrow
  simp only [List.mem_map] at hrow
  obtain ⟨r0, hr0, rfl⟩ := hrow
  simp only [List.mem_map] at hq
  obtain ⟨a, ha, rfl⟩ := hq
  refine mul_nonneg ?_ (hA r0 hr0 a ha)
  split_ifs with h
  · exact le_refl 0
  · exact one_div_nonneg.mpr (List.sum_nonneg (hA r0 hr0))

lemma danglingSum_nonneg {x rowsums : List ℚ} (hx : ∀ q ∈ x, 0 ≤ q) :
    0 ≤ danglingSum x rowsums := by
  unfold danglingSum
  apply List.sum_nonneg
  intro q hq
  simp only [List.mem_map] at hq
  obtain ⟨pr, hpr, rfl⟩ := hq
  split_ifs
  · exact hx _ (List.of_mem_zip hpr).1
  · exact le_refl 0

lemma pagerankStep_nonneg {alpha : ℚ} (h0 : 0 ≤ alpha) (h1 : alpha ≤ 1)
    {M : List (List ℚ)} {rowsums p x : List ℚ}
    (hM : ∀ row ∈ M, ∀ q ∈ row, 0 ≤ q)
    (hp : ∀ q ∈ p, 0 ≤ q) (hx : ∀ q ∈ x, 0 ≤ q) (n : ℕ) :
    ∀ q ∈ pagerankStep alpha M rowsums p x n, 0 ≤ q := by
  intro q hq
  unfold pagerankStep at hq
  simp only [List.mem_map, List.mem_range] at hq
  obtain ⟨j, hj, rfl⟩ := hq
  have hxM : 0 ≤ (vecMatMul x M n).getD j 0 := by
    refine getD_nonneg ?_ j
    intro q hq
    unfold vecMatMul at hq
    simp only [List.mem_map, List.mem_range] at hq
    obtain ⟨j2, hj2, rfl⟩ := hq
    exact dotCol_nonneg hx hM j2
  have hpj : 0 ≤ p.getD j 0 := getD_nonneg hp j
  have hds : 0 ≤ danglingSum x rowsums := danglingSum_nonneg hx
  have t1 : 0 ≤ alpha * ((vecMatMul x M n).getD j 0 + danglingSum x rowsums * p.getD j 0) :=
    mul_nonneg h0 (add_nonneg hxM (mul_nonneg hds hpj))
  have t2 : 0 ≤ (1 - alpha) * p.getD j 0 := mul_nonneg (by linarith) hpj
  linarith

lemma pagerankLoop_nonneg {alpha : ℚ} (h0 : 0 ≤ alpha) (h1 : alpha ≤ 1)
    {M : List (List ℚ)} {rowsums p : List ℚ} {tol : ℚ} {n : ℕ}
    (hM : ∀ row ∈ M, ∀ q ∈ row, 0 ≤ q) (hp : ∀ q ∈ p, 0 ≤ q) :
    ∀ fuel (x : List ℚ), (∀ q ∈ x, 0 ≤ q) →
      ∀ xs, pagerankLoop alpha M rowsums p tol n fuel x = some xs → ∀ q ∈ xs, 0 ≤ q := by
  intro fuel
  induction fuel with
  | zero =>
    intro x hx xs hxs
    simp [pagerankLoop] at hxs
  | succ fuel ih =>
    intro x hx xs hxs
    rw [pagerankLoop] at hxs
    split_ifs at hxs with hcond
    · cases hxs
      exact pagerankStep_nonneg h0 h1 hM hp hx n
    · exact ih _ (pagerankStep_nonneg h0 h1 hM hp hx n) xs hxs

lemma pagerank_nonneg {A : List (List ℚ)} (hA : ∀ row ∈ A, ∀ q ∈ row, 0 ≤ q)
    {xs : List ℚ} (h : pagerank (17/20) A 100 (1/1000000) = some xs) :
    ∀ q ∈ xs, 0 ≤ q := by
  unfold pagerank at h
  refine pagerankLoop_nonneg (by norm_num) (by norm_num)
    (rowNormalized_nonneg hA) ?_ 100 _ ?_ xs h <;>
  · intro q hq
    rw [List.eq_of_mem_replicate hq]
    positivity

lemma textrankScores_nonneg {A : List (List ℚ)} {n : ℕ}
    (hA : ∀ row ∈ A, ∀ q ∈ row, 0 ≤ q) :
    ∀ q ∈ textrankScores A n, 0 ≤ q := by
  unfold textrankScores
  cases hpg : pagerank (17/20) A 100 (1/1000000) with
  | none =>
    intro q hq
    simp only [Option.getD_none] at hq
    rw [List.eq_of_mem_replicate hq]
    positivity
  | some xs =>
    intro q hq
    simp only [Option.getD_some] at hq
    exact pagerank_nonneg hA hpg q hq

/-! Length, order and membership structure of `rank_sentences`. -/

lemma rankedList_length (A : List (List ℚ)) (s : List String) :
    (rankedList A s).length = s.length := by
  unfold rankedList
  rw [(List.perm_insertionSort _ _).length_eq]
  simp

lemma rank_sentences_length (A : List (List ℚ)) (s : List String) (k : ℕ) (h : s ≠ []) :
    (rank_sentences A s k).length = min k s.length := by
  unfold rank_sentences
  rw [if_neg (by simp [List.isEmpty_iff, h]), List.length_take, rankedList_length]
  omega

lemma rankedList_sorted (A : List (List ℚ)) (s : List String) :
    List.Sorted rankLE (rankedList A s) :=
  List.sorted_insertionSort rankLE _

lemma rankedList_pos_nodup (A : List (List ℚ)) (s : List String) :
    ((rankedList A s).map (fun c : Cand => c.2.2)).Nodup := by
  have hperm : List.Perm (rankedList A s)
      ((List.range s.length).map (fun i =>
        (s.getD i "", (textrankScores A s.length).getD i 0, i))) :=
    List.perm_insertionSort _ _
  refine ((hperm.map (fun c : Cand => c.2.2)).nodup_iff).mpr ?_
  rw [List.map_map]
  have : ((fun c : Cand => c.2.2) ∘ fun i =>
      ((s.getD i "", (textrankScores A s.length).getD i 0, i) : Cand)) = fun i => i := rfl
  rw [this, List.map_id']
  exact List.nodup_range _

lemma rankedList_pairwise_strict (A : List (List ℚ)) (s : List String) :
    (rankedList A s).Pairwise
      (fun a b : Cand => b.2.1 < a.2.1 ∨ (a.2.1 = b.2.1 ∧ a.2.2 < b.2.2)) := by
  have h1 : (rankedList A s).Pairwise rankLE := rankedList_sorted A s
  have h2 : (rankedList A s).Pairwise (fun a b : Cand => a.2.2 ≠ b.2.2) := by
    have := rankedList_pos_nodup A s
    rw [List.Nodup, List.pairwise_map] at this
    exact this
  refine (h1.and h2).imp ?_
  rintro a b ⟨hle, hne⟩
  rcases hle with h | ⟨heq, hpos⟩
  · exact Or.inl h
  · exact Or.inr ⟨heq, lt_of_le_of_ne hpos hne⟩

/-- C4 (amended): for non-empty input and a nonnegative similarity matrix,
`rank_sentences` returns exactly `min(top_k, n)` triples (NOT one per
sentence when `top_k < n`), every returned score is ≥ 0, and the output is
sorted by score descending with ties broken by lower position first. -/
theorem c4_rank_sentences_properties (A : List (List ℚ)) (sentences : List String)
    (top_k : ℕ) (hne : sentences ≠ [])
    (hA : ∀ row ∈ A, ∀ q ∈ row, 0 ≤ q) :
    (rank_sentences A sentences top_k).length = min top_k sentences.length ∧
    (∀ e ∈ rank_sentences A sentences top_k, 0 ≤ e.2.1) ∧
    (rank_sentences A sentences top_k).Pairwise
      (fun a b : Cand => b.2.1 < a.2.1 ∨ (a.2.1 = b.2.1 ∧ a.2.2 < b.2.2)) := by
  have hne' : ¬ (sentences.isEmpty = true) := by simp [List.isEmpty_iff, hne]
  refine ⟨rank_sentences_length A sentences top_k hne, ?_, ?_⟩
  · intro e he
    unfold rank_sentences at he
    rw [if_neg hne'] at he
    have hmem : e ∈ rankedList A sentences := List.mem_of_mem_take he
    unfold rankedList at hmem
    have hbase := (List.perm_insertionSort rankLE _).mem_iff.mp hmem
    simp only [List.mem_map, List.mem_range] at hbase
    obtain ⟨i, hi, rfl⟩ := hbase
    exact getD_nonneg (textrankScores_nonneg hA) i
  · unfold rank_sentences
    rw [if_neg hne']
    exact (rankedList_pairwise_strict A sentences).sublist (List.take_sublist _ _)

/-- C4 counterexample: two sentences, top_k = 1 — the result has one entry,
not one per input sentence (`rank_sentences` truncates to
`min(top_k, n)`). -/
theorem c4_truncates_below_sentence_count :
    (rank_sentences [[0, 1/10], [1/10, 0]] ["a", "b"] 1).length = 1 ∧
    (["a", "b"] : List String).length = 2 := by
  constructor
  · rw [rank_sentences_length _ _ _ (by decide)]
    decide
  · rfl

/-- C4 witness: the amended properties instantiated on a concrete
2-sentence input with the constant-0.1 fallback matrix and top_k = 5. -/
theorem c4_rank_sentences_properties_witness :
    (rank_sentences [[0, 1/10], [1/10, 0]] ["a", "b"] 5).length = min 5 2 :=
  (c4_rank_sentences_properties [[0, 1/10], [1/10, 0]] ["a", "b"] 5 (by decide)
    (by with_unfolding_all decide)).1

/-! The all-zero similarity matrix: PageRank converges immediately to the
uniform vector (every node is dangling, so the first iterate is already the
personalization vector). -/

lemma sum_replicate_rat (n : ℕ) (a : ℚ) : (List.replicate n a).sum = n * a := by
  rw [List.sum_replicate, nsmul_eq_mul]

lemma getD_replicate_zero (n i : ℕ) : (List.replicate n (0:ℚ)).getD i 0 = 0 := by
  by_cases h : i < n
  · exact getD_replicate_of_lt _ _ h
  · exact List.getD_eq_default _ _ (by simpa using not_lt.mp h)

lemma mem_zip_self {α : Type} {l : List α} {p : α × α} (h : p ∈ l.zip l) : p.1 = p.2 := by
  induction l with
  | nil => simp at h
  | cons a t ih =>
    rw [List.zip_cons_cons] at h
    rcases List.mem_cons.mp h with h | h
    · rw [h]
    · exact ih h

lemma l1dist_self (x : List ℚ) : l1dist x x = 0 := by
  unfold l1dist
  apply List.sum_eq_zero
  intro q hq
  simp only [List.mem_map] at hq
  obtain ⟨pr, hpr, rfl⟩ := hq
  rw [mem_zip_self hpr]
  simp

lemma rowNormalized_zero (n : ℕ) :
    rowNormalized (List.replicate n (List.replicate n (0:ℚ)))
      = List.replicate n (List.replicate n (0:ℚ)) := by
  unfold rowNormalized
  rw [List.map_replicate]
  congr 1
  rw [List.map_replicate]
  simp

lemma rowsums_zero (n : ℕ) :
    (List.replicate n (List.replicate n (0:ℚ))).map List.sum
      = List.replicate n (0:ℚ) := by
  rw [List.map_replicate]
  simp

lemma pagerankStep_zero (alpha : ℚ) (n : ℕ) (hn : 1 ≤ n) :
    pagerankStep alpha (List.replicate n (List.replicate n (0:ℚ)))
      (List.replicate n 0) (List.replicate n (1 / (n:ℚ))) (List.replicate n (1 / (n:ℚ))) n
      = List.replicate n (1 / (n:ℚ)) := by
  have hcast : ((n:ℚ)) ≠ 0 := by
    have : (0:ℚ) < (n:ℚ) := by exact_mod_cast hn
    exact ne_of_gt this
  have hdot : ∀ j2, dotCol (List.replicate n (1/(n:ℚ)))
      (List.replicate n (List.replicate n (0:ℚ))) j2 = 0 := by
    intro j2
    unfold dotCol
    rw [List.zip_replicate', List.map_replicate, getD_replicate_zero, mul_zero,
      sum_replicate_rat, mul_zero]
  have hvm : ∀ j, (vecMatMul (List.replicate n (1/(n:ℚ)))
      (List.replicate n (List.replicate n (0:ℚ))) n).getD j 0 = 0 := by
    intro j
    unfold vecMatMul
    by_cases hj : j < n
    · rw [List.getD_eq_getElem _ _ (by simpa using hj), List.getElem_map]
      exact hdot _
    · exact List.getD_eq_default _ _ (by simpa using not_lt.mp hj)
  have hds : danglingSum (List.replicate n (1/(n:ℚ))) (List.replicate n 0) = 1 := by
    unfold danglingSum
    rw [List.zip_replicate', List.map_replicate]
    simp only [if_pos rfl]
    rw [sum_replicate_rat]
    field_simp
  unfold pagerankStep
  refine List.eq_replicate_iff.mpr ⟨by simp, ?_⟩
  intro b hb
  simp only [List.mem_map, List.mem_range] at hb
  obtain ⟨j, hj, rfl⟩ := hb
  rw [hvm j, hds, getD_replicate_of_lt _ _ hj]
  ring

lemma pagerankLoop_fixed {alpha : ℚ} {M : List (List ℚ)} {rowsums p : List ℚ}
    {tol : ℚ} {n : ℕ} {x : List ℚ} {fuel : ℕ}
    (hstep : pagerankStep alpha M rowsums p x n = x)
    (hpos : 0 < (n:ℚ) * tol) (hf : 1 ≤ fuel) :
    pagerankLoop alpha M rowsums p tol n fuel x = some x := by
  cases fuel with
  | zero => omega
  | succ f =>
    rw [pagerankLoop, hstep, l1dist_self, if_pos hpos]

/-- Whenever the per-node scores are the uniform vector, every triple
`rank_sentences` returns carries the score 1/n. -/
lemma rank_sentences_score_uniform {A : List (List ℚ)} {sentences : List String}
    {top_k : ℕ} (hne : sentences ≠ [])
    (hsc : textrankScores A sentences.length
      = List.replicate sentences.length (1 / (sentences.length : ℚ))) :
    ∀ e ∈ rank_sentences A sentences top_k, e.2.1 = 1 / (sentences.length : ℚ) := by
  intro e he
  unfold rank_sentences at he
  rw [if_neg (by simp [List.isEmpty_iff, hne])] at he
  have hmem : e ∈ rankedList A sentences := List.mem_of_mem_take he
  unfold rankedList at hmem
  have hbase := (List.perm_insertionSort rankLE _).mem_iff.mp hmem
  simp only [List.mem_map, List.mem_range] at hbase
  obtain ⟨i, hi, rfl⟩ := hbase
  show (textrankScores A sentences.length).getD i 0 = 1 / (sentences.length : ℚ)
  rw [hsc]
  exact getD_replicate_of_lt _ _ hi

/-- C6: on the all-zero similarity matrix (degenerate graph: every node
dangling, no edges), the PageRank call converges — to exactly the uniform
vector 1/n — so `rank_sentences` neither raises nor degenerates: every
returned score equals 1/n (hence the maximum returned score is 1/n), and
for top_k ≥ 1 the result is non-empty.  And whenever the iteration does
fail to converge (`pagerank = none`, the PowerIterationFailedConvergence
exception), the bare `except` fallback installs the same uniform 1/n
score on every node, so no error ever escapes. -/
theorem c6_uniform_on_zero_matrix (sentences : List String) (top_k : ℕ)
    (hne : sentences ≠ []) :
    pagerank (17/20)
        (List.replicate sentences.length (List.replicate sentences.length (0:ℚ)))
        100 (1/1000000)
      = some (List.replicate sentences.length (1 / (sentences.length : ℚ))) ∧
    (∀ e ∈ rank_sentences
        (List.replicate sentences.length (List.replicate sentences.length (0:ℚ)))
        sentences top_k,
      e.2.1 = 1 / (sentences.length : ℚ)) ∧
    (1 ≤ top_k →
      rank_sentences
        (List.replicate sentences.length (List.replicate sentences.length (0:ℚ)))
        sentences top_k ≠ []) ∧
    (∀ A : List (List ℚ), pagerank (17/20) A 100 (1/1000000) = none →
      ∀ e ∈ rank_sentences A sentences top_k, e.2.1 = 1 / (sentences.length : ℚ)) := by
  have hn : 1 ≤ sentences.length := List.length_pos.mpr hne
  have hcast : (0:ℚ) < (sentences.length : ℚ) := by exact_mod_cast hn
  have hpg : pagerank (17/20)
      (List.replicate sentences.length (List.replicate sentences.length (0:ℚ)))
      100 (1/1000000)
      = some (List.replicate sentences.length (1 / (sentences.length : ℚ))) := by
    unfold pagerank
    rw [List.length_replicate, rowNormalized_zero, rowsums_zero]
    exact pagerankLoop_fixed (pagerankStep_zero (17/20) sentences.length hn)
      (mul_pos hcast (by norm_num)) (by norm_num)
  refine ⟨hpg, ?_, ?_, ?_⟩
  · refine rank_sentences_score_uniform hne ?_
    unfold textrankScores
    rw [hpg]
    rfl
  · intro hk
    have := rank_sentences_length
      (List.replicate sentences.length (List.replicate sentences.length (0:ℚ)))
      sentences top_k hne
    refine List.length_pos.mp ?_
    rw [this]
    omega
  · intro A hA
    refine rank_sentences_score_uniform hne ?_
    unfold textrankScores
    rw [hA]
    rfl

/-- C6 witness: for two sentences and the 2×2 zero matrix, PageRank returns
exactly the uniform scores [1/2, 1/2]. -/
theorem c6_uniform_on_zero_matrix_witness :
    pagerank (17/20) [[0, 0], [0, 0]] 100 (1/1000000) = some [1/2, 1/2] := by
  have h := (c6_uniform_on_zero_matrix ["a", "b"] 1 (by decide)).1
  norm_num [List.replicate] at h
  convert h using 2

/-! Embedding of `PreprocessorService.score_sentence_heuristic`,
`ExtractivePipeline._combine_scores`, and the provenance scores built at
the end of `ExtractivePipeline.process`
(`combined_scores[:min(10, len(combined_scores))]`). -/

/-- Python list/string containment helper: does `needle` start `hay`? -/
def startsWithChars : List Char → List Char → Bool
  | [], _ => true
  | _ :: _, [] => false
  | a :: as, b :: bs => a == b && startsWithChars as bs

/-- Python `needle in hay` on strings, over character lists. -/
def containsChars (needle : List Char) : List Char → Bool
  | [] => startsWithChars needle []
  | c :: cs => startsWithChars needle (c :: cs) || containsChars needle cs

/-- `PRIORITY_KEYWORDS` of `config.py` (insertion order preserved). -/
def PRIORITY_KEYWORDS : List (String × ℚ) :=
  [("issue", 2), ("error", 2), ("problem", 2), ("bug", 2),
   ("resolved", 5/2), ("solution", 5/2), ("fixed", 2), ("workaround", 3/2),
   ("steps", 3/2), ("reproduce", 3/2), ("expected", 1), ("actual", 1),
   ("customer", 1), ("user", 1)]

/-- Embeds `score_sentence_heuristic(sentence, position, total)`: summed
keyword weights over the lower-cased sentence, plus the position bonus,
the word-count band bonus, and the question-mark bonus. -/
def score_sentence_heuristic (sentence : String) (position total : ℕ) : ℚ :=
  (PRIORITY_KEYWORDS.map (fun kw =>
    if containsChars kw.1.data (sentence.data.map Char.toLower) then kw.2 else 0)).sum
  + (if position = 0 then 1
     else if position = total - 1 then 4/5
     else if position < 3 then 1/2 else 0)
  + (if 10 ≤ (pyWords sentence).length ∧ (pyWords sentence).length ≤ 30 then 1
     else if (8 ≤ (pyWords sentence).length ∧ (pyWords sentence).length < 10)
          ∨ (30 < (pyWords sentence).length ∧ (pyWords sentence).length ≤ 40) then 1/2
     else 0)
  + (if sentence.data.contains '?' then 1/2 else 0)

/-- The order realized by the stable Python sort
`combined.sort(key=lambda x: x[1], reverse=True)`. -/
def scoreDescLE (a b : Cand) : Prop := b.2.1 ≤ a.2.1

instance : DecidableRel scoreDescLE := fun a b =>
  inferInstanceAs (Decidable (b.2.1 ≤ a.2.1))

instance : IsTotal Cand scoreDescLE := ⟨fun a b => le_total b.2.1 a.2.1⟩

instance : IsTrans Cand scoreDescLE := ⟨fun _ _ _ h1 h2 => le_trans h2 h1⟩

/-- `textrank_map = {sent: score for sent, score, _ in textrank_scores}`
followed by `textrank_map.get(sent, 0.0)`: a Python dict keeps the LAST
binding of a duplicated key, hence the reversed search. -/
def textrankLookup (tr : List Cand) (s : String) : ℚ :=
  ((tr.reverse.find? (fun t => t.1 == s)).map (fun t => t.2.1)).getD 0

/-- Embeds `_combine_scores(heuristic_scores, textrank_scores)`:
`0.6 * textrank + 0.4 * (heuristic / 10)`, sorted by score descending. -/
def combine_scores (heuristic textrank : List Cand) : List Cand :=
  List.insertionSort scoreDescLE
    (heuristic.map (fun h =>
      (h.1, 6/10 * textrankLookup textrank h.1 + 4/10 * (h.2.1 / 10), h.2.2)))

/-- Stage 3 of `ExtractivePipeline.process`: heuristic score per sentence. -/
def heuristicScored (sentences : List String) : List Cand :=
  (List.range sentences.length).map (fun i =>
    (sentences.getD i "", score_sentence_heuristic (sentences.getD i "") i sentences.length, i))

/-- Stages 3–5 of `ExtractivePipeline.process`: fused candidate list (the
TextRank stage is called with `top_k * 2`). -/
def extractive_combined (A : List (List ℚ)) (sentences : List String) (top_k : ℕ) :
    List Cand :=
  combine_scores (heuristicScored sentences) (rank_sentences A sentences (top_k * 2))

/-- The scores placed into the provenance entries of the response:
`[... for sent, score, idx in combined_scores[:min(10, len(combined_scores))]]`. -/
def extractive_provenance_scores (A : List (List ℚ)) (sentences : List String)
    (top_k : ℕ) : List ℚ :=
  ((extractive_combined A sentences top_k).take
    (min 10 (extractive_combined A sentences top_k).length)).map (fun c => c.2.1)

/-- The range constraint `score: float = Field(..., ge=0.0, le=1.0)` that
`SentenceProvenance` (schemas.py) imposes on every provenance score. -/
def SentenceProvenanceValid (q : ℚ) : Prop := 0 ≤ q ∧ q ≤ 1

/-- A single extracted sentence (14 words, all priority keywords, a
question mark): heuristic score 23.5 + 1 + 1 + 0.5 = 26. -/
def c7sentence : String :=
  "user customer issue error problem bug resolved solution fixed workaround steps reproduce expected actual?"

set_option maxRecDepth 100000 in
/-- C7: on a one-sentence document whose sentence contains every priority
keyword, TextRank gives the sentence score 1 and the heuristic gives 26,
so the fused provenance score is 0.6*1 + 0.4*(26/10) = 41/25 = 1.64 —
outside [0,1].  `SentenceProvenance`'s own `le=1.0` field constraint
rejects it, so building the response raises a validation error instead of
returning normalized provenance. -/
theorem c7_provenance_score_above_one :
    extractive_provenance_scores [[1]] [c7sentence] 3 = [41/25] ∧
    ¬ SentenceProvenanceValid (41/25) := by
  constructor
  · with_unfolding_all decide
  · intro h
    exact absurd h.2 (by norm_num)

/-! Embedding of `LLMService.generate_summary` (tenacity
`retry(stop=stop_after_attempt(3))` around the Groq call) and its use at
stage 5 of `AbstractivePipeline.process`, which awaits it with no
try/except.  The external HTTP call is a parameter: attempt `i` either
produces a summary string or raises. -/

inductive LlmAttempt where
  | ok (s : String)
  | fail

/-- tenacity: call the body up to `fuel` times, re-raising (RetryError)
when every attempt has failed. -/
def retryCall : ℕ → (ℕ → LlmAttempt) → ℕ → Except String String
  | 0, _, _ => Except.error "RetryError"
  | fuel + 1, attempts, i =>
    match attempts i with
    | LlmAttempt.ok s => Except.ok s
    | LlmAttempt.fail => retryCall fuel attempts (i + 1)

/-- Embeds `generate_summary`: with no API key/client configured the body
returns `' '.join(sentences[:3])` on the first attempt; otherwise the Groq
call runs under the 3-attempt retry. -/
def generate_summary_model (configured : Bool) (attempts : ℕ → LlmAttempt)
    (sentences : List String) : Except String String :=
  if !configured then Except.ok (String.intercalate " " (sentences.take 3))
  else retryCall 3 attempts 0

/-- Stage 5 of `AbstractivePipeline.process`: the summary is whatever
`generate_summary` produces; there is no surrounding try/except, so an
error propagates and fails the request. -/
def abstractive_summary_result (configured : Bool) (attempts : ℕ → LlmAttempt)
    (top_sentences : List String) : Except String String :=
  generate_summary_model configured attempts top_sentences

/-- C8 counterexample: with the rewriter configured but erroring on every
attempt, the retries exhaust and the abstractive request FAILS with the
retry error — it does not fall back to joining the first 3 selected
sentences. -/
theorem c8_retry_exhaustion_fails_request :
    abstractive_summary_result true (fun _ => LlmAttempt.fail) ["s1", "s2", "s3", "s4"]
      = Except.error "RetryError" ∧
    abstractive_summary_result true (fun _ => LlmAttempt.fail) ["s1", "s2", "s3", "s4"]
      ≠ Except.ok (String.intercalate " " (["s1", "s2", "s3", "s4"].take 3)) := by
  have h1 : abstractive_summary_result true (fun _ => LlmAttempt.fail)
      ["s1", "s2", "s3", "s4"] = Except.error "RetryError" := rfl
  refine ⟨h1, ?_⟩
  rw [h1]
  simp

lemma retryCall_all_fail (attempts : ℕ → LlmAttempt) :
    ∀ fuel i, (∀ j, j < fuel → attempts (i + j) = LlmAttempt.fail) →
      retryCall fuel attempts i = Except.error "RetryError" := by
  intro fuel
  induction fuel with
  | zero => intro i _; rfl
  | succ fuel ih =>
    intro i h
    rw [retryCall]
    have h0 : attempts i = LlmAttempt.fail := by simpa using h 0 (by omega)
    rw [h0]
    refine ih (i + 1) ?_
    intro j hj
    have := h (j + 1) (by omega)
    rw [show i + (j + 1) = i + 1 + j from by omega] at this
    exact this

/-- C8 (amended): if the generative rewriter is UNAVAILABLE (not
configured), the request succeeds with the first 3 selected sentences
joined verbatim; but if it is configured and keeps erroring, the bounded
retry (3 attempts) exhausts and the error propagates out of the
abstractive pipeline — the request fails instead of falling back. -/
theorem c8_fallback_only_when_unconfigured (configured : Bool)
    (attempts : ℕ → LlmAttempt) (sentences : List String) :
    (configured = false →
      abstractive_summary_result configured attempts sentences
        = Except.ok (String.intercalate " " (sentences.take 3))) ∧
    (configured = true → (∀ i, i < 3 → attempts i = LlmAttempt.fail) →
      abstractive_summary_result configured attempts sentences
        = Except.error "RetryError") := by
  constructor
  · intro h
    subst h
    rfl
  · intro h hfail
    subst h
    show retryCall 3 attempts 0 = Except.error "RetryError"
    refine retryCall_all_fail attempts 3 0 ?_
    intro j hj
    simpa using hfail j hj

/-- C8 witness: with the rewriter unconfigured, four selected sentences
produce the verbatim fallback summary "a b c". -/
theorem c8_fallback_witness :
    abstractive_summary_result false (fun _ => LlmAttempt.fail) ["a", "b", "c", "d"]
      = Except.ok "a b c" := by
  have h := (c8_fallback_only_when_unconfigured false (fun _ => LlmAttempt.fail)
    ["a", "b", "c", "d"]).1 rfl
  rw [h]
  with_unfolding_all rfl

/-! Embedding of `_build_similarity_matrix`.  The sklearn TF-IDF
vectorizer is an external collaborator: its outcome is a parameter —
either the per-sentence TF-IDF row vectors (entrywise nonnegative by
construction of TF-IDF) or the exception (degenerate vocabulary) that
triggers the constant-0.1 fallback.  sklearn `cosine_similarity` is
idealized over the reals; `np.fill_diagonal(matrix, 0)` becomes the
`if i = j then 0` entry. -/

noncomputable def listDot (a b : List ℝ) : ℝ :=
  ∑ i ∈ Finset.range (min a.length b.length), a.getD i 0 * b.getD i 0

/-- Cosine similarity of two vectors, 0 when either is the zero vector
(sklearn's `normalize` leaves zero rows zero). -/
noncomputable def cossim (a b : List ℝ) : ℝ :=
  if listDot a a = 0 ∨ listDot b b = 0 then 0
  else listDot a b / (Real.sqrt (listDot a a) * Real.sqrt (listDot b b))

/-- Outcome of `self.vectorizer.fit_transform(sentences)`. -/
inductive TfidfOutcome where
  | ok (vecs : List (List ℝ))
  | err

/-- TF-IDF vectors have nonnegative entries. -/
def vecsNonneg : TfidfOutcome → Prop
  | TfidfOutcome.ok vecs => ∀ v ∈ vecs, ∀ x ∈ v, (0:ℝ) ≤ x
  | TfidfOutcome.err => True

/-- Embeds `_build_similarity_matrix`: the `len(sentences) == 1` branch
returns `[[1.0]]`; the TF-IDF branch takes pairwise cosine similarity and
zeroes the diagonal; the except branch builds the 0.1 matrix with zero
diagonal. -/
noncomputable def build_similarity_matrix (sentences : List String) (t : TfidfOutcome) :
    List (List ℝ) :=
  if sentences.length = 1 then [[1]]
  else
    match t with
    | TfidfOutcome.ok vecs =>
      (List.range sentences.length).map (fun i =>
        (List.range sentences.length).map (fun j =>
          if i = j then 0 else cossim (vecs.getD i []) (vecs.getD j [])))
    | TfidfOutcome.err =>
      (List.range sentences.length).map (fun i =>
        (List.range sentences.length).map (fun j =>
          if i = j then (0:ℝ) else 1/10))

/-- Matrix entry accessor (0 outside the matrix). -/
noncomputable def simEntry (S : List (List ℝ)) (i j : ℕ) : ℝ :=
  (S.getD i []).getD j 0

/-- C5 counterexample: for a single sentence the matrix cell is 1.0, not 0
— the diagonal-zero invariant fails at n = 1. -/
theorem c5_single_sentence_cell_is_one :
    simEntry (build_similarity_matrix ["hello"] TfidfOutcome.err) 0 0 = 1 ∧
    (1:ℝ) ≠ 0 := by
  constructor
  · simp [build_similarity_matrix, simEntry]
  · norm_num

lemma getD_nonneg_real {l : List ℝ} (h : ∀ x ∈ l, 0 ≤ x) (i : ℕ) : 0 ≤ l.getD i 0 := by
  by_cases hi : i < l.length
  · rw [List.getD_eq_getElem _ _ (hi)]
    exact h _ (List.getElem_mem hi)
  · rw [List.getD_eq_default _ _ (by omega)]

lemma listDot_comm (a b : List ℝ) : listDot a b = listDot b a := by
  unfold listDot
  rw [min_comm]
  exact Finset.sum_congr rfl (fun i _ => mul_comm _ _)

lemma listDot_self_nonneg (a : List ℝ) : 0 ≤ listDot a a := by
  unfold listDot
  exact Finset.sum_nonneg (fun i _ => mul_self_nonneg _)

lemma listDot_nonneg {a b : List ℝ} (ha : ∀ x ∈ a, 0 ≤ x) (hb : ∀ x ∈ b, 0 ≤ x) :
    0 ≤ listDot a b := by
  unfold listDot
  exact Finset.sum_nonneg (fun i _ =>
    mul_nonneg (getD_nonneg_real ha i) (getD_nonneg_real hb i))

lemma sum_sq_le_listDot_self (a : List ℝ) (m : ℕ) (hm : m ≤ a.length) :
    ∑ i ∈ Finset.range m, (a.getD i 0)^2 ≤ listDot a a := by
  calc ∑ i ∈ Finset.range m, (a.getD i 0)^2
      ≤ ∑ i ∈ Finset.range a.length, (a.getD i 0)^2 :=
        Finset.sum_le_sum_of_subset_of_nonneg (Finset.range_subset.mpr hm)
          (fun i _ _ => sq_nonneg _)
    _ = listDot a a := by
        unfold listDot
        rw [min_self]
        exact Finset.sum_congr rfl (fun i _ => pow_two _)

/-- Cauchy–Schwarz for the list dot product. -/
lemma listDot_le_sqrt_mul_sqrt (a b : List ℝ) :
    listDot a b ≤ Real.sqrt (listDot a a) * Real.sqrt (listDot b b) := by
  have h1 := Real.sum_mul_le_sqrt_mul_sqrt (Finset.range (min a.length b.length))
    (fun i => a.getD i 0) (fun i => b.getD i 0)
  refine le_trans h1 ?_
  apply mul_le_mul ?_ ?_ (Real.sqrt_nonneg _) (Real.sqrt_nonneg _)
  · exact Real.sqrt_le_sqrt (sum_sq_le_listDot_self a _ (min_le_left _ _))
  · exact Real.sqrt_le_sqrt (sum_sq_le_listDot_self b _ (min_le_right _ _))

lemma cossim_comm (a b : List ℝ) : cossim a b = cossim b a := by
  unfold cossim
  rw [listDot_comm a b, mul_comm]
  exact if_congr or_comm rfl rfl

lemma cossim_nonneg {a b : List ℝ} (ha : ∀ x ∈ a, 0 ≤ x) (hb : ∀ x ∈ b, 0 ≤ x) :
    0 ≤ cossim a b := by
  unfold cossim
  split_ifs
  · exact le_refl 0
  · exact div_nonneg (listDot_nonneg ha hb)
      (mul_nonneg (Real.sqrt_nonneg _) (Real.sqrt_nonneg _))

lemma cossim_le_one (a b : List ℝ) : cossim a b ≤ 1 := by
  unfold cossim
  split_ifs with h
  · norm_num
  · push_neg at h
    have ha : 0 < listDot a a := lt_of_le_of_ne (listDot_self_nonneg a) (Ne.symm h.1)
    have hb : 0 < listDot b b := lt_of_le_of_ne (listDot_self_nonneg b) (Ne.symm h.2)
    rw [div_le_one (mul_pos (Real.sqrt_pos.mpr ha) (Real.sqrt_pos.mpr hb))]
    exact listDot_le_sqrt_mul_sqrt a b

lemma getD_range_map {α : Type} (f : ℕ → α) (d : α) {n i : ℕ} (h : i < n) :
    ((List.range n).map f).getD i d = f i := by
  rw [List.getD_eq_getElem _ _ (by simpa using h), List.getElem_map, List.getElem_range]

lemma build_length (s : List String) (t : TfidfOutcome) :
    (build_similarity_matrix s t).length = s.length := by
  unfold build_similarity_matrix
  split_ifs with h
  · simp [h]
  · cases t <;> simp

lemma build_row_length (s : List String) (t : TfidfOutcome) :
    ∀ row ∈ build_similarity_matrix s t, row.length = s.length := by
  intro row hrow
  unfold build_similarity_matrix at hrow
  split_ifs at hrow with h
  · simp only [List.mem_singleton] at hrow
    simp [hrow, h]
  · cases t <;>
    · simp only [List.mem_map, List.mem_range] at hrow
      obtain ⟨i, _, rfl⟩ := hrow
      simp

lemma simEntry_out_left {S : List (List ℝ)} {i : ℕ} (h : S.length ≤ i) (j : ℕ) :
    simEntry S i j = 0 := by
  unfold simEntry
  rw [List.getD_eq_default _ _ h]
  cases j <;> rfl

lemma simEntry_out_right {S : List (List ℝ)} {n j : ℕ}
    (hrow : ∀ row ∈ S, row.length = n) (h : n ≤ j) (i : ℕ) :
    simEntry S i j = 0 := by
  by_cases hi : i < S.length
  · unfold simEntry
    rw [List.getD_eq_getElem _ _ (hi)]
    refine List.getD_eq_default _ _ ?_
    rw [hrow _ (List.getElem_mem hi)]
    exact h
  · exact simEntry_out_left (by omega) j

lemma simEntry_ok {s : List String} {vecs : List (List ℝ)} (hne1 : s.length ≠ 1)
    {i j : ℕ} (hi : i < s.length) (hj : j < s.length) :
    simEntry (build_similarity_matrix s (TfidfOutcome.ok vecs)) i j
      = if i = j then 0 else cossim (vecs.getD i []) (vecs.getD j []) := by
  unfold build_similarity_matrix simEntry
  rw [if_neg hne1]
  rw [getD_range_map _ _ hi, getD_range_map _ _ hj]

lemma simEntry_err {s : List String} (hne1 : s.length ≠ 1)
    {i j : ℕ} (hi : i < s.length) (hj : j < s.length) :
    simEntry (build_similarity_matrix s TfidfOutcome.err) i j
      = if i = j then (0:ℝ) else 1/10 := by
  unfold build_similarity_matrix simEntry
  rw [if_neg hne1]
  rw [getD_range_map _ _ hi, getD_range_map _ _ hj]

/-- C5 (amended): for a single sentence the code returns the 1×1 matrix
[[1.0]] (NOT 0 — the claim's n=1 clause fails); for n ≥ 2, on both the
TF-IDF path (with nonnegative TF-IDF vectors) and the constant-0.1
fallback path, the matrix is n×n and symmetric, every diagonal entry is 0,
and every off-diagonal entry lies in [0,1]. -/
theorem c5_similarity_matrix_properties (sentences : List String) (t : TfidfOutcome)
    (hvec : vecsNonneg t) :
    (sentences.length = 1 → build_similarity_matrix sentences t = [[1]]) ∧
    (2 ≤ sentences.length →
      (build_similarity_matrix sentences t).length = sentences.length ∧
      (∀ row ∈ build_similarity_matrix sentences t, row.length = sentences.length) ∧
      (∀ i j, simEntry (build_similarity_matrix sentences t) i j
            = simEntry (build_similarity_matrix sentences t) j i) ∧
      (∀ i, i < sentences.length →
        simEntry (build_similarity_matrix sentences t) i i = 0) ∧
      (∀ i j, i < sentences.length → j < sentences.length → i ≠ j →
        0 ≤ simEntry (build_similarity_matrix sentences t) i j ∧
        simEntry (build_similarity_matrix sentences t) i j ≤ 1)) := by
  constructor
  · intro h1
    unfold build_similarity_matrix
    rw [if_pos h1]
  · intro hn
    have hne1 : sentences.length ≠ 1 := by omega
    refine ⟨build_length sentences t, build_row_length sentences t, ?_, ?_, ?_⟩
    · intro i j
      by_cases hi : i < sentences.length
      · by_cases hj : j < sentences.length
        · cases t with
          | ok vecs =>
            rw [simEntry_ok hne1 hi hj, simEntry_ok hne1 hj hi]
            by_cases hij : i = j
            · simp [hij]
            · rw [if_neg hij, if_neg (Ne.symm hij)]
              exact cossim_comm _ _
          | err =>
            rw [simEntry_err hne1 hi hj, simEntry_err hne1 hj hi]
            by_cases hij : i = j
            · simp [hij]
            · rw [if_neg hij, if_neg (Ne.symm hij)]
        · rw [simEntry_out_right (build_row_length sentences t) (by omega) i,
              simEntry_out_left (by rw [build_length]; omega) i]
      · rw [simEntry_out_left (by rw [build_length]; omega) j,
            simEntry_out_right (build_row_length sentences t) (by omega) j]
    · intro i hi
      cases t with
      | ok vecs => rw [simEntry_ok hne1 hi hi, if_pos rfl]
      | err => rw [simEntry_err hne1 hi hi, if_pos rfl]
    · intro i j hi hj hij
      cases t with
      | ok vecs =>
        have hv : ∀ k : ℕ, ∀ x ∈ vecs.getD k [], (0:ℝ) ≤ x := by
          intro k x hx
          by_cases hk : k < vecs.length
          · rw [List.getD_eq_getElem _ _ (hk)] at hx
            exact hvec _ (List.getElem_mem hk) x hx
          · rw [List.getD_eq_default _ _ (by omega)] at hx
            simp at hx
        rw [simEntry_ok hne1 hi hj, if_neg hij]
        exact ⟨cossim_nonneg (hv i) (hv j), cossim_le_one _ _⟩
      | err =>
        rw [simEntry_err hne1 hi hj, if_neg hij]
        constructor <;> norm_num

/-- C5 witness: for two sentences with orthogonal unit TF-IDF vectors, the
off-diagonal entry lies in [0,1]. -/
theorem c5_similarity_matrix_properties_witness :
    0 ≤ simEntry (build_similarity_matrix ["a", "b"]
        (TfidfOutcome.ok [[1, 0], [0, 1]])) 0 1 ∧
    simEntry (build_similarity_matrix ["a", "b"]
        (TfidfOutcome.ok [[1, 0], [0, 1]])) 0 1 ≤ 1 :=
  (((c5_similarity_matrix_properties ["a", "b"] (TfidfOutcome.ok [[1, 0], [0, 1]])
      (by intro v hv x hx; fin_cases hv <;> fin_cases hx <;> norm_num)).2
    (by norm_num)).2.2.2.2) 0 1 (by norm_num) (by norm_num) (by norm_num)
